import Mathlib

/-!
Verification of the exploratory-data-analysis toolkit in src/functions.py:
semantic column classification, pairwise Pearson correlation, pairwise
chi-square association screening, cardinality filtering and z-score
standardization, shallowly embedded over exact arithmetic (machine floats
are modelled as rationals, real-valued statistics as real numbers).
-/

/-- Raw storage type (pandas dtype) of a column. -/
inductive Dtype
  | int
  | float
  | other
deriving DecidableEq, Repr, Inhabited

/-- A single cell value: an integer, a float (modelled exactly as a rational),
or text. -/
inductive Cell
  | int (z : ℤ)
  | float (q : ℚ)
  | str (s : String)
deriving DecidableEq, Repr, Inhabited

/-- Numeric view of a cell, used by the numeric routines (which in the source
only ever run on integer- or float-typed columns). -/
def Cell.toRat : Cell → ℚ
  | .int z => z
  | .float q => q
  | .str _ => 0

/-- A named column: label, declared dtype and cell values (one per record). -/
structure Col where
  name : String
  dtype : Dtype
  values : List Cell
deriving DecidableEq, Repr, Inhabited

/-- A table (pandas DataFrame): an ordered sequence of named columns. -/
structure DataFrame where
  cols : List Col
deriving DecidableEq, Repr, Inhabited

/-- The numeric values of a column. -/
def Col.ratValues (c : Col) : List ℚ := c.values.map Cell.toRat

/-- nunique: the number of distinct values of a column. -/
def Col.nunique (c : Col) : ℕ := c.values.dedup.length

/-- Label lookup df[n]: the first column labelled n, if any. -/
def findCol (cols : List Col) (n : String) : Option Col :=
  cols.find? (fun c => c.name == n)

/-- Selection of a list of labels against a fixed column list; fails (pandas
KeyError) as soon as a label is absent. -/
def selCols : List Col → List String → Option (List Col)
  | _, [] => some []
  | cols, n :: ns =>
      match findCol cols n with
      | none => none
      | some c =>
          match selCols cols ns with
          | none => none
          | some rest => some (c :: rest)

/-- df[[n1, ..., nk]]: column selection by label list. -/
def DataFrame.sel (df : DataFrame) (names : List String) : Option DataFrame :=
  (selCols df.cols names).map DataFrame.mk

/-- df.select_dtypes(include=d). -/
def DataFrame.select_dtypes (df : DataFrame) (d : Dtype) : DataFrame :=
  ⟨df.cols.filter (fun c => c.dtype == d)⟩

/-- extract_categorical_cols: keep the integer-dtyped columns, then select all
of their labels except Age and PatientID. -/
def extract_categorical_cols (df : DataFrame) : Option DataFrame :=
  let dataset_cat := df.select_dtypes .int
  dataset_cat.sel ((dataset_cat.cols.map Col.name).filter
    (fun n => !(n == "Age" || n == "PatientID")))

/-- extract_numerical_cols: select, from the original frame, the labels of the
float-dtyped columns followed by the label Age. -/
def extract_numerical_cols (df : DataFrame) : Option DataFrame :=
  let dataset_num := df.select_dtypes .float
  df.sel (dataset_num.cols.map Col.name ++ ["Age"])

section ClassifierLemmas

/-- With unique labels, looking a member column up by its own label finds it. -/
theorem findCol_self {cols : List Col} (h : (cols.map Col.name).Nodup)
    {c : Col} (hc : c ∈ cols) : findCol cols c.name = some c := by
  induction cols with
  | nil => cases hc
  | cons d rest ih =>
      simp only [List.map_cons, List.nodup_cons] at h
      rcases List.mem_cons.1 hc with rfl | hc'
      · simp [findCol, List.find?]
      · have hne : (d.name == c.name) = false := by
          simp only [beq_eq_false_iff_ne, ne_eq]
          intro he
          exact h.1 (he ▸ List.mem_map_of_mem Col.name hc')
        simpa [findCol, List.find?, hne] using ih h.2 hc'

/-- With unique labels, selecting the labels of a sub-collection of columns
returns exactly those columns. -/
theorem selCols_self {cols : List Col} (h : (cols.map Col.name).Nodup) :
    ∀ sub : List Col, (∀ c ∈ sub, c ∈ cols) →
      selCols cols (sub.map Col.name) = some sub := by
  intro sub
  induction sub with
  | nil => intro _; rfl
  | cons c rest ih =>
      intro hsub
      have h1 : findCol cols c.name = some c :=
        findCol_self h (hsub c (List.mem_cons_self c rest))
      have h2 : selCols cols (rest.map Col.name) = some rest :=
        ih (fun d hd => hsub d (List.mem_cons_of_mem c hd))
      simp [selCols, h1, h2]

/-- Selecting any list of labels that all occur in the frame succeeds. -/
theorem selCols_isSome {cols : List Col} :
    ∀ ns : List String, (∀ n ∈ ns, ∃ c ∈ cols, c.name = n) →
      ∃ l, selCols cols ns = some l := by
  intro ns
  induction ns with
  | nil => exact fun _ => ⟨[], rfl⟩
  | cons n rest ih =>
      intro hns
      obtain ⟨c, hc, hname⟩ := hns n (List.mem_cons_self n rest)
      obtain ⟨l, hl⟩ := ih (fun m hm => hns m (List.mem_cons_of_mem n hm))
      cases hfc : findCol cols n with
      | none =>
          exfalso
          have := List.find?_eq_none.1 hfc c hc
          simp [hname] at this
      | some d => exact ⟨d :: l, by simp [selCols, hfc, hl]⟩

/-- Splitting a selection over an appended label list. -/
theorem selCols_append (cols : List Col) (ns1 ns2 : List String) :
    selCols cols (ns1 ++ ns2) =
      (selCols cols ns1).bind (fun l1 =>
        (selCols cols ns2).map (fun l2 => l1 ++ l2)) := by
  induction ns1 with
  | nil => cases h : selCols cols ns2 <;> simp [selCols, h]
  | cons n rest ih =>
      cases hfc : findCol cols n with
      | none => simp [selCols, hfc]
      | some c =>
          simp only [List.cons_append, selCols, hfc]
          cases h1 : selCols cols rest with
          | none => simp [ih, h1]
          | some l1 =>
              cases h2 : selCols cols ns2 with
              | none => simp [ih, h1, h2]
              | some l2 => simp [ih, h1, h2]

/-- A successful label lookup returns a member column carrying that label. -/
theorem findCol_mem {cols : List Col} {n : String} {c : Col}
    (h : findCol cols n = some c) : c ∈ cols ∧ c.name = n := by
  refine ⟨List.mem_of_find?_eq_some h, ?_⟩
  have := List.find?_some h
  simpa using this

/-- The categorical branch of the classifier, characterized as a single filter:
integer-dtyped columns whose label is neither Age nor PatientID. -/
theorem extract_categorical_eq (df : DataFrame)
    (h : (df.cols.map Col.name).Nodup) :
    extract_categorical_cols df =
      some ⟨(df.select_dtypes .int).cols.filter
        (fun c => !(c.name == "Age" || c.name == "PatientID"))⟩ := by
  have hsub : ((df.select_dtypes .int).cols.map Col.name).Nodup :=
    ((List.filter_sublist df.cols).map Col.name).nodup h
  have hmap : ((df.select_dtypes .int).cols.map Col.name).filter
        (fun n => !(n == "Age" || n == "PatientID")) =
      ((df.select_dtypes .int).cols.filter
        (fun c => !(c.name == "Age" || c.name == "PatientID"))).map Col.name :=
    List.filter_map Col.name (df.select_dtypes .int).cols
  have hsel := selCols_self hsub
    ((df.select_dtypes .int).cols.filter
      (fun c => !(c.name == "Age" || c.name == "PatientID")))
    (fun c hc => List.mem_of_mem_filter hc)
  simp only [extract_categorical_cols, DataFrame.sel, hmap, hsel, Option.map_some']

/-- The classifier's categorical branch never fails, whether or not columns
named Age or PatientID are present. -/
theorem extract_categorical_isSome (df : DataFrame) :
    ∃ dfc, extract_categorical_cols df = some dfc := by
  have hns : ∀ n ∈ ((df.select_dtypes .int).cols.map Col.name).filter
      (fun n => !(n == "Age" || n == "PatientID")),
      ∃ c ∈ (df.select_dtypes .int).cols, c.name = n := by
    intro n hn
    have hn' := List.mem_of_mem_filter hn
    obtain ⟨c, hc, rfl⟩ := List.mem_map.1 hn'
    exact ⟨c, hc, rfl⟩
  obtain ⟨l, hl⟩ := selCols_isSome _ hns
  refine ⟨⟨l⟩, ?_⟩
  simp only [extract_categorical_cols, DataFrame.sel]
  rw [hl]
  rfl

/-- When some column is labelled Age, the numerical branch returns the
float-dtyped columns, in their original order, with that column appended. -/
theorem extract_numerical_eq_of_age {df : DataFrame}
    (h : (df.cols.map Col.name).Nodup) {a : Col} (ha : a ∈ df.cols)
    (hname : a.name = "Age") :
    extract_numerical_cols df =
      some ⟨(df.select_dtypes .float).cols ++ [a]⟩ := by
  have h1 : selCols df.cols ((df.select_dtypes .float).cols.map Col.name) =
      some (df.select_dtypes .float).cols :=
    selCols_self h _ (fun c hc => List.mem_of_mem_filter hc)
  have hfind : findCol df.cols "Age" = some a := by
    have := findCol_self h ha
    rwa [hname] at this
  have h2 : selCols df.cols ["Age"] = some [a] := by
    simp [selCols, hfind]
  simp only [extract_numerical_cols, DataFrame.sel, selCols_append, h1, h2,
    Option.bind_some, Option.map_some']
  rfl

/-- When no column is labelled Age, the numerical branch fails. -/
theorem extract_numerical_none {df : DataFrame}
    (hno : ∀ c ∈ df.cols, c.name ≠ "Age") :
    extract_numerical_cols df = none := by
  have hfind : findCol df.cols "Age" = none := by
    apply List.find?_eq_none.2
    intro c hc
    simp [hno c hc]
  have h2 : selCols df.cols ["Age"] = none := by
    simp [selCols, hfind]
  simp only [extract_numerical_cols, DataFrame.sel, selCols_append, h2]
  cases selCols df.cols ((df.select_dtypes .float).cols.map Col.name) <;> rfl

/-- Inversion: a successful numerical extraction pins down the result shape. -/
theorem extract_numerical_inv {df dfn : DataFrame}
    (h : (df.cols.map Col.name).Nodup)
    (he : extract_numerical_cols df = some dfn) :
    ∃ a ∈ df.cols, a.name = "Age" ∧
      dfn.cols = (df.select_dtypes .float).cols ++ [a] := by
  by_cases hex : ∃ a ∈ df.cols, a.name = "Age"
  · obtain ⟨a, ha, hname⟩ := hex
    refine ⟨a, ha, hname, ?_⟩
    rw [extract_numerical_eq_of_age h ha hname] at he
    cases he
    rfl
  · push_neg at hex
    rw [extract_numerical_none hex] at he
    cases he

end ClassifierLemmas

section ConcreteFrames

/-- Age column of the sample table from the repository's test suite. -/
def wAge : Col := ⟨"Age", .int, [.int 25, .int 30, .int 35]⟩

/-- PatientID column of the sample table. -/
def wPid : Col := ⟨"PatientID", .int, [.int 1, .int 2, .int 3]⟩

/-- Category1 column of the sample table. -/
def wCat1 : Col := ⟨"Category1", .int, [.int 0, .int 1, .int 0]⟩

/-- Category2 column of the sample table. -/
def wCat2 : Col := ⟨"Category2", .int, [.int 1, .int 0, .int 1]⟩

/-- NumericCol column of the sample table (float-dtyped measurements). -/
def wNum : Col :=
  ⟨"NumericCol", .float, [.float 10, .float 20, .float 30]⟩

/-- NoCardinalityCol column of the sample table. -/
def wText : Col := ⟨"NoCardinalityCol", .other, [.str "text", .str "text", .str "text"]⟩

/-- The sample table exercised by the repository's test suite. -/
def wFrame : DataFrame := ⟨[wAge, wPid, wCat1, wCat2, wNum, wText]⟩

end ConcreteFrames

/-- C3: numerical_subset returns exactly the float-typed columns in their
original order followed by the Age column appended at the end, and fails when
no column is named Age. -/
theorem numerical_subset_spec (df : DataFrame)
    (h : (df.cols.map Col.name).Nodup) :
    (∀ a ∈ df.cols, a.name = "Age" →
      extract_numerical_cols df =
        some ⟨(df.select_dtypes .float).cols ++ [a]⟩) ∧
    ((∀ c ∈ df.cols, c.name ≠ "Age") → extract_numerical_cols df = none) :=
  ⟨fun a ha hname => @extract_numerical_eq_of_age df h a ha hname,
   fun hno => extract_numerical_none hno⟩

/-- Witness for C3 on the repository's sample table: the float column followed
by the appended Age column. -/
theorem numerical_subset_spec_witness :
    extract_numerical_cols wFrame = some ⟨[wNum, wAge]⟩ := by
  have h := (numerical_subset_spec wFrame (by decide)).1 wAge (by decide) rfl
  rw [h]
  rfl

/-- C4: categorical_subset returns exactly the integer-typed columns minus the
Age and PatientID columns, and never fails: exclusion by name is a no-op when
those names are absent. -/
theorem categorical_subset_spec (df : DataFrame) :
    (∃ dfc, extract_categorical_cols df = some dfc) ∧
    ((df.cols.map Col.name).Nodup →
      extract_categorical_cols df =
        some ⟨(df.select_dtypes .int).cols.filter
          (fun c => !(c.name == "Age" || c.name == "PatientID"))⟩) :=
  ⟨extract_categorical_isSome df, fun h => extract_categorical_eq df h⟩

/-- Witness for C4 on a table with no Age and no PatientID column at all: the
classification still succeeds and keeps both integer columns. -/
theorem categorical_subset_spec_witness :
    extract_categorical_cols ⟨[wCat1, wCat2, wText]⟩ =
      some ⟨[wCat1, wCat2]⟩ := by
  have h := (categorical_subset_spec ⟨[wCat1, wCat2, wText]⟩).2 (by decide)
  rw [h]
  rfl

/-- C9: the categorical subset and the numerical subset share no column label. -/
theorem classification_disjoint (df : DataFrame)
    (h : (df.cols.map Col.name).Nodup)
    (dfc dfn : DataFrame)
    (hc : extract_categorical_cols df = some dfc)
    (hn : extract_numerical_cols df = some dfn) :
    ∀ n, n ∈ dfc.cols.map Col.name → n ∉ dfn.cols.map Col.name := by
  intro n hcat hnum
  rw [extract_categorical_eq df h] at hc
  cases hc
  obtain ⟨a, _, haname, hshape⟩ := extract_numerical_inv h hn
  obtain ⟨c, hcf, rfl⟩ := List.mem_map.1 hcat
  have hcprops := List.mem_filter.1 hcf
  have hcint : c.dtype = .int := by
    have := (List.mem_filter.1 hcprops.1).2
    simpa using this
  have hcdf : c ∈ df.cols := List.mem_of_mem_filter hcprops.1
  have hcage : ¬(c.name = "Age") ∧ ¬(c.name = "PatientID") := by
    have := hcprops.2
    simp only [Bool.not_eq_true', Bool.or_eq_false_iff, beq_eq_false_iff_ne] at this
    exact ⟨this.1, this.2⟩
  rw [hshape] at hnum
  simp only [List.map_append, List.mem_append, List.map_cons, List.map_nil,
    List.mem_singleton] at hnum
  rcases hnum with hfl | hage
  · obtain ⟨c', hc'f, hc'name⟩ := List.mem_map.1 hfl
    have hc'float : c'.dtype = .float := by
      have := (List.mem_filter.1 hc'f).2
      simpa using this
    have hc'df : c' ∈ df.cols := List.mem_of_mem_filter hc'f
    have : c = c' := List.inj_on_of_nodup_map h hcdf hc'df hc'name.symm
    rw [this, hc'float] at hcint
    cases hcint
  · exact hcage.1 (hage ▸ haname)

/-- Witness for C9 on the repository's sample table: the label Category1 from
the categorical subset does not occur among the numerical subset's labels. -/
theorem classification_disjoint_witness :
    "Category1" ∉ (DataFrame.mk [wNum, wAge]).cols.map Col.name :=
  classification_disjoint wFrame (by decide) ⟨[wCat1, wCat2]⟩ ⟨[wNum, wAge]⟩
    rfl rfl "Category1" (by decide)

/-- C10: when the Age column itself is float-typed, numerical_subset returns it
twice — once among the float columns and once appended — so the result has a
duplicated column label. -/
theorem numerical_subset_duplicates_age (df : DataFrame)
    (h : (df.cols.map Col.name).Nodup) (a : Col) (ha : a ∈ df.cols)
    (hname : a.name = "Age") (hfl : a.dtype = .float) :
    ∃ dfn, extract_numerical_cols df = some dfn ∧
      2 ≤ (dfn.cols.map Col.name).count "Age" ∧
      ¬ (dfn.cols.map Col.name).Nodup := by
  have hmem : a ∈ (df.select_dtypes .float).cols :=
    List.mem_filter.2 ⟨ha, by simp [hfl]⟩
  have hagemem : "Age" ∈ (df.select_dtypes .float).cols.map Col.name :=
    hname ▸ List.mem_map_of_mem Col.name hmem
  have hcount : 2 ≤ ((((df.select_dtypes .float).cols ++ [a]).map Col.name).count "Age") := by
    rw [List.map_append, List.count_append]
    have h1 : 1 ≤ ((df.select_dtypes .float).cols.map Col.name).count "Age" :=
      List.one_le_count_iff.2 hagemem
    have h2 : ([a].map Col.name).count "Age" = 1 := by
      simp [hname]
    omega
  refine ⟨⟨(df.select_dtypes .float).cols ++ [a]⟩,
    extract_numerical_eq_of_age h ha hname, hcount, fun hnd => ?_⟩
  have hnd' : ((((df.select_dtypes .float).cols ++ [a]).map Col.name)).Nodup := hnd
  have := (List.nodup_iff_count_le_one.1 hnd') "Age"
  omega

/-- Witness for C10: a table whose Age column is float-typed; the numerical
subset repeats it. -/
theorem numerical_subset_duplicates_age_witness :
    extract_numerical_cols ⟨[⟨"Age", .float, [.float 1, .float 2]⟩]⟩ =
      some ⟨[⟨"Age", .float, [.float 1, .float 2]⟩,
             ⟨"Age", .float, [.float 1, .float 2]⟩]⟩ ∧
    ¬ ((DataFrame.mk [⟨"Age", .float, [.float 1, .float 2]⟩,
             ⟨"Age", .float, [.float 1, .float 2]⟩]).cols.map Col.name).Nodup := by
  obtain ⟨dfn, he, _, hnd⟩ := numerical_subset_duplicates_age
    ⟨[⟨"Age", .float, [.float 1, .float 2]⟩]⟩ (by decide)
    ⟨"Age", .float, [.float 1, .float 2]⟩ (by decide) rfl rfl
  have hval : dfn = ⟨[⟨"Age", .float, [.float 1, .float 2]⟩,
      ⟨"Age", .float, [.float 1, .float 2]⟩]⟩ := by
    have h2 : extract_numerical_cols ⟨[⟨"Age", .float, [.float 1, .float 2]⟩]⟩ =
        some ⟨[⟨"Age", .float, [.float 1, .float 2]⟩,
               ⟨"Age", .float, [.float 1, .float 2]⟩]⟩ := rfl
    rw [he] at h2
    exact (Option.some.injEq _ _ ▸ h2 : _)
  subst hval
  exact ⟨he, hnd⟩

/-- drop_cols_no_cardinality: collect the labels of all columns with at most
one distinct value, then drop every column carrying one of those labels. -/
def drop_cols_no_cardinality (df : DataFrame) : DataFrame :=
  let cols_to_drop := (df.cols.filter (fun c => decide (c.nunique ≤ 1))).map Col.name
  ⟨df.cols.filter (fun c => !(cols_to_drop.contains c.name))⟩

section CardinalityLemmas

/-- Every survivor of the cardinality filter has at least two distinct values. -/
theorem drop_cols_survivor {df : DataFrame} {c : Col}
    (h : c ∈ (drop_cols_no_cardinality df).cols) : c ∈ df.cols ∧ 2 ≤ c.nunique := by
  simp only [drop_cols_no_cardinality] at h
  obtain ⟨hmem, hkeep⟩ := List.mem_filter.1 h
  refine ⟨hmem, ?_⟩
  by_contra hlt
  have hc1 : c.nunique ≤ 1 := by omega
  have hdrop : c.name ∈ (df.cols.filter (fun c => decide (c.nunique ≤ 1))).map Col.name :=
    List.mem_map_of_mem Col.name (List.mem_filter.2 ⟨hmem, by simpa using hc1⟩)
  rw [Bool.not_eq_true', ← Bool.not_eq_true] at hkeep
  exact hkeep (List.contains_iff_exists_mem_beq.2 ⟨c.name, hdrop, by simp⟩)

end CardinalityLemmas

/-- C8: the cardinality filter is idempotent, and (for a table with unique
labels) it drops exactly the columns having at most one distinct value,
preserving the order of the survivors. -/
theorem cardinality_filter_spec (df : DataFrame) :
    drop_cols_no_cardinality (drop_cols_no_cardinality df) =
      drop_cols_no_cardinality df ∧
    ((df.cols.map Col.name).Nodup →
      (drop_cols_no_cardinality df).cols =
        df.cols.filter (fun c => decide (2 ≤ c.nunique))) := by
  constructor
  · obtain ⟨D, hD⟩ : ∃ D, drop_cols_no_cardinality df = D := ⟨_, rfl⟩
    have hnil : D.cols.filter (fun c => decide (c.nunique ≤ 1)) = [] := by
      rw [List.filter_eq_nil_iff]
      intro c hc
      have := (drop_cols_survivor (hD ▸ hc)).2
      simp only [decide_eq_true_eq]
      omega
    rw [hD]
    simp only [drop_cols_no_cardinality, hnil]
    simp
  · intro hnd
    simp only [drop_cols_no_cardinality]
    apply List.filter_congr
    intro c hc
    have hcon : ((df.cols.filter (fun c => decide (c.nunique ≤ 1))).map Col.name).contains c.name
        = decide (c.nunique ≤ 1) := by
      by_cases h1 : c.nunique ≤ 1
      · rw [decide_eq_true h1]
        exact List.contains_iff_exists_mem_beq.2
          ⟨c.name, List.mem_map_of_mem Col.name
            (List.mem_filter.2 ⟨hc, by simpa using h1⟩), by simp⟩
      · rw [decide_eq_false h1, ← Bool.not_eq_true]
        intro hcontains
        obtain ⟨m, hm, hbeq⟩ := List.contains_iff_exists_mem_beq.1 hcontains
        obtain ⟨d, hd, hdname⟩ := List.mem_map.1 hm
        obtain ⟨hddf, hdle⟩ := List.mem_filter.1 hd
        have hname : c.name = d.name := (eq_of_beq hbeq).trans hdname.symm
        have hcd : c = d := List.inj_on_of_nodup_map hnd hc hddf hname
        rw [hcd] at h1
        simp only [decide_eq_true_eq] at hdle
        exact h1 hdle
    rw [hcon]
    by_cases h1 : c.nunique ≤ 1
    · rw [decide_eq_true h1, decide_eq_false (by omega : ¬ 2 ≤ c.nunique)]
      rfl
    · rw [decide_eq_false h1, decide_eq_true (by omega : 2 ≤ c.nunique)]
      rfl

/-- Witness for C8 on the repository's sample table: exactly the constant text
column is dropped, the five other columns survive in order. -/
theorem cardinality_filter_spec_witness :
    drop_cols_no_cardinality (drop_cols_no_cardinality wFrame) =
      drop_cols_no_cardinality wFrame ∧
    (drop_cols_no_cardinality wFrame).cols = [wAge, wPid, wCat1, wCat2, wNum] := by
  have h := cardinality_filter_spec wFrame
  refine ⟨h.1, ?_⟩
  rw [h.2 (by decide)]
  decide

/-- itertools.combinations(l, 2): every position-ordered pair of distinct
positions, first component from the earlier position. -/
def pairsOf {α : Type _} : List α → List (α × α)
  | [] => []
  | x :: xs => xs.map (fun y => (x, y)) ++ pairsOf xs

section PairsLemmas

variable {α : Type _}

theorem pairsOf_length : ∀ l : List α,
    2 * (pairsOf l).length = l.length * (l.length - 1)
  | [] => rfl
  | x :: xs => by
      have ih := pairsOf_length xs
      simp only [pairsOf, List.length_append, List.length_map, List.length_cons,
        Nat.succ_sub_one]
      cases hx : xs.length with
      | zero =>
          rw [hx] at ih
          simp only [Nat.zero_sub, Nat.mul_zero, Nat.zero_mul] at ih ⊢
          omega
      | succ m =>
          rw [hx] at ih
          simp only [Nat.succ_sub_one] at ih
          nlinarith [ih]

/-- Position-based characterization of the enumerated pairs. -/
theorem pairsOf_mem_iff {l : List α} {p : α × α} :
    p ∈ pairsOf l ↔ ∃ i j : ℕ, i < j ∧ l.get? i = some p.1 ∧ l.get? j = some p.2 := by
  induction l with
  | nil => simp [pairsOf]
  | cons x xs ih =>
      simp only [pairsOf, List.mem_append, List.mem_map, ih]
      constructor
      · rintro (⟨y, hy, rfl⟩ | ⟨i, j, hij, h1, h2⟩)
        · obtain ⟨k, hk⟩ := List.get?_of_mem hy
          exact ⟨0, k + 1, Nat.succ_pos k, rfl, by simpa using hk⟩
        · exact ⟨i + 1, j + 1, Nat.succ_lt_succ hij, by simpa using h1, by simpa using h2⟩
      · rintro ⟨i, j, hij, h1, h2⟩
        cases i with
        | zero =>
            cases j with
            | zero => cases hij.ne rfl
            | succ k =>
                left
                refine ⟨p.2, List.get?_mem (by simpa using h2), ?_⟩
                have hx1 : p.1 = x := by simpa using h1.symm
                rw [← hx1]
        | succ i' =>
            cases j with
            | zero => omega
            | succ j' =>
                right
                exact ⟨i', j', Nat.lt_of_succ_lt_succ hij, by simpa using h1,
                  by simpa using h2⟩

/-- Both components of an enumerated pair are members of the list. -/
theorem pairsOf_mem_of_mem {l : List α} {p : α × α} (h : p ∈ pairsOf l) :
    p.1 ∈ l ∧ p.2 ∈ l := by
  obtain ⟨i, j, _, h1, h2⟩ := pairsOf_mem_iff.1 h
  exact ⟨List.get?_mem h1, List.get?_mem h2⟩

/-- With distinct elements, the enumeration lists no pair twice. -/
theorem pairsOf_nodup {l : List α} (h : l.Nodup) : (pairsOf l).Nodup := by
  induction l with
  | nil => simp [pairsOf]
  | cons x xs ih =>
      rw [List.nodup_cons] at h
      apply List.Nodup.append
      · exact h.2.map (fun a b hab => by
          simpa using congrArg Prod.snd hab)
      · exact ih h.2
      · intro p hp1 hp2
        obtain ⟨y, _, rfl⟩ := List.mem_map.1 hp1
        exact h.1 (pairsOf_mem_of_mem hp2).1

/-- With distinct elements, no self-pair is enumerated. -/
theorem pairsOf_ne {l : List α} (h : l.Nodup) {p : α × α} (hp : p ∈ pairsOf l) :
    p.1 ≠ p.2 := by
  obtain ⟨i, j, hij, h1, h2⟩ := pairsOf_mem_iff.1 hp
  intro he
  rw [he] at h1
  have hi : i < l.length := by
    have := List.get?_eq_some.1 h1
    exact this.1
  have : i = j := List.getElem?_inj hi h
    (by rw [← List.get?_eq_getElem?, ← List.get?_eq_getElem?, h1, h2])
  omega

/-- With distinct elements, no reversed duplicate is enumerated. -/
theorem pairsOf_no_reverse {l : List α} (h : l.Nodup) {p : α × α}
    (hp : p ∈ pairsOf l) : (p.2, p.1) ∉ pairsOf l := by
  intro hrev
  obtain ⟨i, j, hij, h1, h2⟩ := pairsOf_mem_iff.1 hp
  obtain ⟨i', j', hij', h1', h2'⟩ := pairsOf_mem_iff.1 hrev
  simp only at h1' h2'
  have hi : i < l.length := (List.get?_eq_some.1 h1).1
  have hj : j < l.length := (List.get?_eq_some.1 h2).1
  have hij1 : i = j' := List.getElem?_inj hi h
    (by rw [← List.get?_eq_getElem?, ← List.get?_eq_getElem?, h1, h2'])
  have hij2 : j = i' := List.getElem?_inj hj h
    (by rw [← List.get?_eq_getElem?, ← List.get?_eq_getElem?, h2, h1'])
  omega

/-- Completeness: every position-ordered pair of positions is enumerated. -/
theorem pairsOf_complete {l : List α} {i j : ℕ} {a b : α} (hij : i < j)
    (h1 : l.get? i = some a) (h2 : l.get? j = some b) : (a, b) ∈ pairsOf l :=
  pairsOf_mem_iff.2 ⟨i, j, hij, h1, h2⟩

/-- The enumeration commutes with mapping. -/
theorem pairsOf_map {β : Type _} (f : α → β) : ∀ l : List α,
    pairsOf (l.map f) = (pairsOf l).map (Prod.map f f)
  | [] => rfl
  | x :: xs => by
      simp only [List.map_cons, pairsOf, List.map_append, List.map_map,
        pairsOf_map f xs]
      rfl

end PairsLemmas

/-- C6: with k categorical columns, the screener enumerates exactly k(k-1)/2
pairs, each unordered pair of distinct columns exactly once, the first
component always at an earlier subset position than the second, with no
self-pairs and no reversed duplicates. -/
theorem chi_square_pair_enumeration (df : DataFrame)
    (h : (df.cols.map Col.name).Nodup)
    (dfc : DataFrame) (hc : extract_categorical_cols df = some dfc) :
    2 * (pairsOf dfc.cols).length = dfc.cols.length * (dfc.cols.length - 1) ∧
    (pairsOf dfc.cols).length = dfc.cols.length * (dfc.cols.length - 1) / 2 ∧
    (pairsOf dfc.cols).Nodup ∧
    (∀ p ∈ pairsOf dfc.cols, p.1.name ≠ p.2.name) ∧
    (∀ p ∈ pairsOf dfc.cols, (p.2, p.1) ∉ pairsOf dfc.cols) ∧
    (∀ p ∈ pairsOf dfc.cols, ∃ i j : ℕ, i < j ∧
      dfc.cols.get? i = some p.1 ∧ dfc.cols.get? j = some p.2) ∧
    (∀ i j a b, i < j → dfc.cols.get? i = some a → dfc.cols.get? j = some b →
      (a, b) ∈ pairsOf dfc.cols) := by
  have hnames : (dfc.cols.map Col.name).Nodup := by
    rw [extract_categorical_eq df h] at hc
    cases hc
    have hsub : ((df.select_dtypes .int).cols.map Col.name).Nodup :=
      ((List.filter_sublist df.cols).map Col.name).nodup h
    exact ((List.filter_sublist _).map Col.name).nodup hsub
  have hcols : dfc.cols.Nodup := hnames.of_map
  have hlen := pairsOf_length dfc.cols
  refine ⟨hlen, by omega, pairsOf_nodup hcols, ?_, fun p hp => pairsOf_no_reverse hcols hp,
    fun p hp => pairsOf_mem_iff.1 hp, fun i j a b hij h1 h2 => pairsOf_complete hij h1 h2⟩
  intro p hp hname
  have hmap : (p.1.name, p.2.name) ∈ pairsOf (dfc.cols.map Col.name) := by
    rw [pairsOf_map]
    exact List.mem_map.2 ⟨p, hp, rfl⟩
  exact pairsOf_ne hnames hmap hname

/-- Witness for C6 on the repository's sample table: two categorical columns
give exactly one pair, listed without duplicates. -/
theorem chi_square_pair_enumeration_witness :
    (pairsOf (DataFrame.mk [wCat1, wCat2]).cols).length =
      (DataFrame.mk [wCat1, wCat2]).cols.length *
        ((DataFrame.mk [wCat1, wCat2]).cols.length - 1) / 2 ∧
    (pairsOf (DataFrame.mk [wCat1, wCat2]).cols).Nodup := by
  have h := chi_square_pair_enumeration wFrame (by decide) ⟨[wCat1, wCat2]⟩ rfl
  exact ⟨h.2.1, h.2.2.1⟩

/-- Row labels of pd.crosstab: the distinct values of the first column over
the row-aligned observation pairs. -/
def contRows (xs ys : List Cell) : List Cell := ((xs.zip ys).map Prod.fst).dedup

/-- Column labels of pd.crosstab: the distinct values of the second column. -/
def contCols (xs ys : List Cell) : List Cell := ((xs.zip ys).map Prod.snd).dedup

/-- Expected frequency under the independence null: row total times column
total over the grand total. -/
def contExpected (xs ys : List Cell) (u v : Cell) : ℚ :=
  ((((xs.zip ys).map Prod.fst).count u : ℚ) *
    (((xs.zip ys).map Prod.snd).count v : ℚ)) / ((xs.zip ys).length : ℚ)

/-- scipy's degrees of freedom: size - sum(shape) + ndim - 1. -/
def contDof (xs ys : List Cell) : ℤ :=
  ((contRows xs ys).length : ℤ) * ((contCols xs ys).length : ℤ)
    - (((contRows xs ys).length : ℤ) + ((contCols xs ys).length : ℤ)) + 1

/-- scipy's guard: the test is rejected when some expected frequency is zero. -/
def contHasZeroExpected (xs ys : List Cell) : Bool :=
  (contRows xs ys).any (fun u => (contCols xs ys).any
    (fun v => decide (contExpected xs ys u v = 0)))

/-- Yates continuity adjustment: move each observed count toward its expected
count by at most one half. -/
def yatesAdjust (o e : ℚ) : ℚ :=
  o + min (1 / 2) |e - o| * (if o < e then 1 else if e < o then -1 else 0)

/-- The chi-square statistic over the crosstab, with the Yates adjustment that
scipy applies when the degrees of freedom equal 1. -/
def chi2Stat (xs ys : List Cell) : ℚ :=
  ((contRows xs ys).map (fun u => ((contCols xs ys).map (fun v =>
    (((if contDof xs ys = 1
        then yatesAdjust ((xs.zip ys).count (u, v) : ℚ) (contExpected xs ys u v)
        else ((xs.zip ys).count (u, v) : ℚ)) - contExpected xs ys u v) ^ 2) /
      contExpected xs ys u v)).sum)).sum

/-- Survival function of the chi-squared distribution with k degrees of
freedom at x: the upper tail integral of the gamma(k/2, scale 2) density. -/
noncomputable def chi2_sf (x : ℚ) (k : ℤ) : ℝ :=
  (∫ t in Set.Ioi (x : ℝ), t ^ ((k : ℝ) / 2 - 1) * Real.exp (-t / 2)) /
    (2 ^ ((k : ℝ) / 2) * Real.Gamma ((k : ℝ) / 2))

/-- chi2_contingency from scipy.stats: crosstab the two columns, reject zero
expected frequencies, special-case zero degrees of freedom to the fabricated
result (0, 1), and otherwise return the statistic with its p-value. -/
noncomputable def chi2_contingency (xs ys : List Cell) : Option (ℚ × ℝ) :=
  if contHasZeroExpected xs ys then none
  else if contDof xs ys = 0 then some (0, 1)
  else some (chi2Stat xs ys, chi2_sf (chi2Stat xs ys) (contDof xs ys))

/-- One row of the screener's output frame. -/
structure Record where
  first_col : String
  second_col : String
  chi_square_stat : ℚ
  p_value : ℝ

/-- sort_values(by=[first_col, second_col]): ascending lexicographic order on
the two label fields. -/
def recLE (a b : Record) : Prop :=
  a.first_col < b.first_col ∨
    (a.first_col = b.first_col ∧ a.second_col ≤ b.second_col)

instance : DecidableRel recLE := fun a b => by
  unfold recLE
  infer_instance

instance : IsTotal Record recLE :=
  ⟨fun a b => by
    unfold recLE
    rcases lt_trichotomy a.first_col b.first_col with h | h | h
    · exact Or.inl (Or.inl h)
    · rcases le_total a.second_col b.second_col with h2 | h2
      · exact Or.inl (Or.inr ⟨h, h2⟩)
      · exact Or.inr (Or.inr ⟨h.symm, h2⟩)
    · exact Or.inr (Or.inl h)⟩

instance : IsTrans Record recLE :=
  ⟨fun a b c hab hbc => by
    unfold recLE at *
    rcases hab with h1 | ⟨h1, h1'⟩ <;> rcases hbc with h2 | ⟨h2, h2'⟩
    · exact Or.inl (h1.trans h2)
    · exact Or.inl (lt_of_lt_of_eq h1 h2)
    · exact Or.inl (lt_of_eq_of_lt h1 h2)
    · exact Or.inr ⟨h1.trans h2, h1'.trans h2'⟩⟩

/-- output_df.sort_values(by=[first_col, second_col]). -/
def sortRecords (l : List Record) : List Record := l.insertionSort recLE

/-- The screener's accumulation loop: for each pair run the test, append the
row when its p-value is at most the threshold, and re-sort the accumulated
frame on every iteration (as the source does inside the for loop). -/
noncomputable def chiLoop (thr : ℚ) : List (Col × Col) → List Record → Option (List Record)
  | [], acc => some acc
  | (ca, cb) :: ps, acc =>
      match chi2_contingency ca.values cb.values with
      | none => none
      | some (s, p) =>
          chiLoop thr ps (sortRecords
            (if p ≤ (thr : ℝ) then acc ++ [⟨ca.name, cb.name, s, p⟩] else acc))

/-- calculate_pair_wise_chi_square_test: classify, enumerate the pairs, and
run the filtering loop starting from an empty output frame. -/
noncomputable def calculate_pair_wise_chi_square_test (df : DataFrame) (thr : ℚ) :
    Option (List Record) :=
  match extract_categorical_cols df with
  | none => none
  | some dfc => chiLoop thr (pairsOf dfc.cols) []

/-- The record of every enumerated pair, before threshold filtering. -/
noncomputable def chiRecords : List (Col × Col) → Option (List Record)
  | [] => some []
  | (ca, cb) :: ps =>
      match chi2_contingency ca.values cb.values, chiRecords ps with
      | some (s, p), some rs => some (⟨ca.name, cb.name, s, p⟩ :: rs)
      | _, _ => none

section ChiLoopLemmas

/-- Closed-form behavior of the accumulation loop: it succeeds exactly when
every pair's test succeeds, its output is a permutation of the accumulator
plus the threshold-filtered records, and it is sorted whenever at least one
iteration ran. -/
theorem chiLoop_spec (thr : ℚ) : ∀ (ps : List (Col × Col)) (acc rs : List Record),
    chiRecords ps = some rs →
    ∃ l, chiLoop thr ps acc = some l ∧
      l.Perm (acc ++ rs.filter (fun r => decide (r.p_value ≤ (thr : ℝ)))) ∧
      (ps = [] → l = acc) ∧ (ps ≠ [] → l.Sorted recLE) := by
  intro ps
  induction ps with
  | nil =>
      intro acc rs hrs
      simp only [chiRecords, Option.some.injEq] at hrs
      subst hrs
      exact ⟨acc, rfl, by simp, fun _ => rfl, fun h => absurd rfl h⟩
  | cons q ps ih =>
      intro acc rs hrs
      obtain ⟨ca, cb⟩ := q
      cases hchi : chi2_contingency ca.values cb.values with
      | none => rw [chiRecords, hchi] at hrs; cases hrs
      | some sp =>
          obtain ⟨s, p⟩ := sp
          cases hrest : chiRecords ps with
          | none => rw [chiRecords, hchi, hrest] at hrs; cases hrs
          | some rs' =>
              rw [chiRecords, hchi, hrest] at hrs
              simp only [Option.some.injEq] at hrs
              subst hrs
              obtain ⟨l, hl, hperm, hnil, hsort⟩ :=
                ih (sortRecords
                  (if p ≤ (thr : ℝ) then acc ++ [⟨ca.name, cb.name, s, p⟩] else acc))
                  rs' hrest
              refine ⟨l, ?_, ?_, ?_, fun _ => ?_⟩
              · rw [chiLoop, hchi]
                exact hl
              · refine hperm.trans ?_
                have hs : sortRecords
                    (if p ≤ (thr : ℝ) then acc ++ [⟨ca.name, cb.name, s, p⟩] else acc)
                    |>.Perm
                    (if p ≤ (thr : ℝ) then acc ++ [⟨ca.name, cb.name, s, p⟩] else acc) :=
                  List.perm_insertionSort recLE _
                refine (hs.append_right _).trans ?_
                by_cases hp : p ≤ (thr : ℝ)
                · rw [if_pos hp, List.filter_cons]
                  have hd : decide ((⟨ca.name, cb.name, s, p⟩ : Record).p_value ≤ (thr : ℝ))
                      = true := decide_eq_true hp
                  rw [hd]
                  simp only [if_true, List.append_assoc, List.singleton_append]
                  exact List.Perm.refl _
                · rw [if_neg hp, List.filter_cons]
                  have hd : decide ((⟨ca.name, cb.name, s, p⟩ : Record).p_value ≤ (thr : ℝ))
                      = false := decide_eq_false hp
                  rw [hd]
                  simp only [Bool.false_eq_true, if_false]
                  exact List.Perm.refl _
              · intro h
                cases h
              · rcases List.eq_nil_or_concat ps with hps | _
                · subst hps
                  rw [hnil rfl]
                  exact List.sorted_insertionSort recLE _
                · by_cases hps : ps = []
                  · subst hps
                    rw [hnil rfl]
                    exact List.sorted_insertionSort recLE _
                  · exact hsort hps

end ChiLoopLemmas

/-- C7: the screener's output is defined exactly when every pair's test is,
contains exactly the pairs whose p-value is at most the threshold (inclusive
retention), and is sorted ascending by (first_col, second_col). -/
theorem chi_square_filter_sort (df : DataFrame) (thr : ℚ)
    (dfc : DataFrame) (hc : extract_categorical_cols df = some dfc)
    (rs : List Record) (hrs : chiRecords (pairsOf dfc.cols) = some rs) :
    ∃ l, calculate_pair_wise_chi_square_test df thr = some l ∧
      l.Perm (rs.filter (fun r => decide (r.p_value ≤ (thr : ℝ)))) ∧
      l.Sorted recLE := by
  obtain ⟨l, hl, hperm, hnil, hsort⟩ := chiLoop_spec thr (pairsOf dfc.cols) [] rs hrs
  refine ⟨l, ?_, by simpa using hperm, ?_⟩
  · rw [calculate_pair_wise_chi_square_test, hc]
    exact hl
  · by_cases hps : pairsOf dfc.cols = []
    · rw [hnil hps]
      exact List.sorted_nil
    · exact hsort hps

/-- Witness for C7 on a single-categorical-column table: no pairs, so the
output frame is empty (and trivially sorted). -/
theorem chi_square_filter_sort_witness :
    calculate_pair_wise_chi_square_test ⟨[wCat1]⟩ 1 = some [] := by
  obtain ⟨l, hl, hperm, _⟩ :=
    chi_square_filter_sort ⟨[wCat1]⟩ 1 ⟨[wCat1]⟩ rfl [] rfl
  have hnil : l = [] := by
    have := hperm
    simp only [List.filter_nil] at this
    exact this.eq_nil
  rw [hnil] at hl
  exact hl

/-- C2 (amended): when a pair's contingency table has exactly one distinct
value on either side — degrees of freedom 0 — and no zero expected frequency,
chi2_contingency silently returns the fabricated result: statistic 0 and
p-value 1 (scipy's degenerate-case branch); nothing is raised or skipped. -/
theorem chi_square_degenerate_fabricates (xs ys : List Cell)
    (hz : contHasZeroExpected xs ys = false)
    (hdeg : (contRows xs ys).length = 1 ∨ (contCols xs ys).length = 1) :
    chi2_contingency xs ys = some (0, 1) := by
  have hdof : contDof xs ys = 0 := by
    unfold contDof
    rcases hdeg with h | h <;> rw [h] <;> push_cast <;> ring
  simp [chi2_contingency, hz, hdof]

/-- Column A of the degenerate-pair counterexample: constant. -/
def cxA : Col := ⟨"A", .int, [.int 0, .int 0]⟩

/-- Column B of the degenerate-pair counterexample: binary. -/
def cxB : Col := ⟨"B", .int, [.int 0, .int 1]⟩

/-- No expected frequency of the (A, B) crosstab is zero. -/
theorem cx_no_zero_expected : contHasZeroExpected cxA.values cxB.values = false := by
  norm_num [contHasZeroExpected, contRows, contCols, contExpected, cxA, cxB,
    List.dedup, List.pwFilter, List.count, List.countP]
  decide

/-- Witness for C2's amended theorem: the concrete degenerate pair (A, B)
yields the fabricated statistic 0 with p-value 1. -/
theorem chi_square_degenerate_fabricates_witness :
    chi2_contingency cxA.values cxB.values = some (0, 1) :=
  chi_square_degenerate_fabricates cxA.values cxB.values cx_no_zero_expected
    (by decide)

/-- Counterexample for C2 as stated: column A is degenerate (one distinct
value), yet the screener run at threshold 1 neither fails nor skips the pair:
it returns the fabricated record (A, B, 0, 1). -/
theorem chi_square_degenerate_counterexample :
    cxA.nunique = 1 ∧
    calculate_pair_wise_chi_square_test ⟨[cxA, cxB]⟩ 1 =
      some [⟨"A", "B", 0, 1⟩] := by
  refine ⟨by decide, ?_⟩
  have hext : extract_categorical_cols ⟨[cxA, cxB]⟩ = some ⟨[cxA, cxB]⟩ := rfl
  have hchi : chi2_contingency cxA.values cxB.values = some (0, 1) := by
    have hdof : contDof cxA.values cxB.values = 0 := by decide
    simp [chi2_contingency, cx_no_zero_expected, hdof]
  have hpairs : pairsOf (DataFrame.mk [cxA, cxB]).cols = [(cxA, cxB)] := rfl
  rw [calculate_pair_wise_chi_square_test, hext]
  show chiLoop 1 (pairsOf (DataFrame.mk [cxA, cxB]).cols) [] = _
  rw [hpairs]
  simp only [chiLoop, hchi]
  rw [if_pos (by norm_num : (1 : ℝ) ≤ ((1 : ℚ) : ℝ))]
  rfl

/-- Column values centered by the column mean. -/
def centered (vs : List ℚ) : List ℚ :=
  vs.map (fun x => x - vs.sum / (vs.length : ℚ))

/-- Unnormalized covariance: the sum of products of centered values (the
normalization constants cancel in the correlation ratio). -/
def covL (xs ys : List ℚ) : ℚ :=
  (List.zipWith (· * ·) (centered xs) (centered ys)).sum

/-- Unnormalized variance. -/
def varL (xs : List ℚ) : ℚ := covL xs xs

/-- Pearson product-moment correlation of two columns. -/
noncomputable def pearsonR (xs ys : List ℚ) : ℝ :=
  ((covL xs ys : ℝ)) / (Real.sqrt ((varL xs : ℚ) : ℝ) * Real.sqrt ((varL ys : ℚ) : ℝ))

/-- Rounding to two decimal places, as pandas .round(2) does (the two rounding
conventions differ only on exact half-ties, which none of the verified
properties depend on). -/
noncomputable def round2 (x : ℝ) : ℝ := ((round (100 * x) : ℤ) : ℝ) / 100

/-- Entry (i, j) of the correlation matrix over the numerical subset. -/
noncomputable def corrMatrix (dfn : DataFrame) (i j : ℕ) : ℝ :=
  round2 (pearsonR ((dfn.cols.getD i default).ratValues)
    ((dfn.cols.getD j default).ratValues))

/-- calculate_pair_wise_correlation: Pearson correlation of the numerical
subset, rounded to two decimals. -/
noncomputable def calculate_pair_wise_correlation (df : DataFrame) :
    Option (ℕ → ℕ → ℝ) :=
  (extract_numerical_cols df).map corrMatrix

section CorrelationLemmas

theorem zipWith_mul_comm : ∀ a b : List ℚ,
    List.zipWith (· * ·) a b = List.zipWith (· * ·) b a
  | [], b => by cases b <;> rfl
  | _ :: _, [] => rfl
  | x :: as, y :: bs => by
      simp only [List.zipWith_cons_cons, mul_comm, zipWith_mul_comm as bs]

theorem covL_comm (xs ys : List ℚ) : covL xs ys = covL ys xs := by
  unfold covL
  rw [zipWith_mul_comm]

theorem pearsonR_comm (xs ys : List ℚ) : pearsonR xs ys = pearsonR ys xs := by
  unfold pearsonR
  rw [covL_comm, mul_comm]

theorem zipWith_mul_self (l : List ℚ) :
    List.zipWith (· * ·) l l = l.map (fun x => x * x) := by
  induction l with
  | nil => rfl
  | cons x xs ih => simp [ih]

theorem varL_nonneg (xs : List ℚ) : 0 ≤ varL xs := by
  unfold varL covL
  rw [zipWith_mul_self]
  apply List.sum_nonneg
  intro q hq
  obtain ⟨x, _, rfl⟩ := List.mem_map.1 hq
  exact mul_self_nonneg x

theorem zipWith_mul_sum_eq : ∀ a b : List ℚ,
    (List.zipWith (· * ·) a b).sum =
      ∑ i in Finset.range (min a.length b.length), a.getD i 0 * b.getD i 0
  | [], b => by simp
  | _ :: _, [] => by simp
  | x :: as, y :: bs => by
      simp only [List.zipWith_cons_cons, List.sum_cons, List.length_cons,
        Nat.succ_min_succ, Finset.sum_range_succ', List.getD_cons_succ,
        List.getD_cons_zero]
      rw [zipWith_mul_sum_eq as bs]
      ring

/-- Discrete Cauchy-Schwarz for the unnormalized covariance. -/
theorem covL_sq_le (xs ys : List ℚ) : covL xs ys ^ 2 ≤ varL xs * varL ys := by
  unfold varL covL
  rw [zipWith_mul_sum_eq (centered xs) (centered ys),
    zipWith_mul_sum_eq (centered xs) (centered xs),
    zipWith_mul_sum_eq (centered ys) (centered ys), Nat.min_self, Nat.min_self]
  have hcs := Finset.sum_mul_sq_le_sq_mul_sq (Finset.range
      (min (centered xs).length (centered ys).length))
    (fun i => (centered xs).getD i 0) (fun i => (centered ys).getD i 0)
  simp only [pow_two] at hcs ⊢
  have hA : ∑ i in Finset.range (min (centered xs).length (centered ys).length),
      (centered xs).getD i 0 * (centered xs).getD i 0 ≤
      ∑ i in Finset.range (centered xs).length,
        (centered xs).getD i 0 * (centered xs).getD i 0 :=
    Finset.sum_le_sum_of_subset_of_nonneg
      (Finset.range_subset.2 (Nat.min_le_left _ _))
      (fun i _ _ => mul_self_nonneg _)
  have hB : ∑ i in Finset.range (min (centered xs).length (centered ys).length),
      (centered ys).getD i 0 * (centered ys).getD i 0 ≤
      ∑ i in Finset.range (centered ys).length,
        (centered ys).getD i 0 * (centered ys).getD i 0 :=
    Finset.sum_le_sum_of_subset_of_nonneg
      (Finset.range_subset.2 (Nat.min_le_right _ _))
      (fun i _ _ => mul_self_nonneg _)
  have hBnn : 0 ≤ ∑ i in Finset.range (min (centered xs).length (centered ys).length),
      (centered ys).getD i 0 * (centered ys).getD i 0 :=
    Finset.sum_nonneg (fun i _ => mul_self_nonneg _)
  have hAnn : 0 ≤ ∑ i in Finset.range (centered xs).length,
      (centered xs).getD i 0 * (centered xs).getD i 0 :=
    Finset.sum_nonneg (fun i _ => mul_self_nonneg _)
  calc (∑ i in Finset.range (min (centered xs).length (centered ys).length),
        (centered xs).getD i 0 * (centered ys).getD i 0) *
      (∑ i in Finset.range (min (centered xs).length (centered ys).length),
        (centered xs).getD i 0 * (centered ys).getD i 0)
      ≤ (∑ i in Finset.range (min (centered xs).length (centered ys).length),
          (centered xs).getD i 0 * (centered xs).getD i 0) *
        (∑ i in Finset.range (min (centered xs).length (centered ys).length),
          (centered ys).getD i 0 * (centered ys).getD i 0) := hcs
    _ ≤ (∑ i in Finset.range (centered xs).length,
          (centered xs).getD i 0 * (centered xs).getD i 0) *
        (∑ i in Finset.range (centered ys).length,
          (centered ys).getD i 0 * (centered ys).getD i 0) :=
        mul_le_mul hA hB hBnn hAnn

theorem pearsonR_self (xs : List ℚ) (h : varL xs ≠ 0) : pearsonR xs xs = 1 := by
  unfold pearsonR
  rw [Real.mul_self_sqrt (by exact_mod_cast varL_nonneg xs)]
  exact div_self (by exact_mod_cast h)

theorem pearsonR_abs_le (xs ys : List ℚ) (hx : varL xs ≠ 0) (hy : varL ys ≠ 0) :
    |pearsonR xs ys| ≤ 1 := by
  unfold pearsonR
  have hx0 : (0 : ℝ) < ((varL xs : ℚ) : ℝ) := by
    have h1 := varL_nonneg xs
    have h2 : (0 : ℚ) < varL xs := lt_of_le_of_ne h1 (Ne.symm hx)
    exact_mod_cast h2
  have hy0 : (0 : ℝ) < ((varL ys : ℚ) : ℝ) := by
    have h1 := varL_nonneg ys
    have h2 : (0 : ℚ) < varL ys := lt_of_le_of_ne h1 (Ne.symm hy)
    exact_mod_cast h2
  have hden : (0 : ℝ) < Real.sqrt ((varL xs : ℚ) : ℝ) * Real.sqrt ((varL ys : ℚ) : ℝ) :=
    mul_pos (Real.sqrt_pos.2 hx0) (Real.sqrt_pos.2 hy0)
  rw [abs_div, abs_of_pos hden, div_le_one hden]
  have hcs : ((covL xs ys : ℚ) : ℝ) ^ 2 ≤ ((varL xs : ℚ) : ℝ) * ((varL ys : ℚ) : ℝ) := by
    exact_mod_cast covL_sq_le xs ys
  calc |((covL xs ys : ℚ) : ℝ)|
      = Real.sqrt (((covL xs ys : ℚ) : ℝ) ^ 2) := (Real.sqrt_sq_eq_abs _).symm
    _ ≤ Real.sqrt (((varL xs : ℚ) : ℝ) * ((varL ys : ℚ) : ℝ)) := Real.sqrt_le_sqrt hcs
    _ = Real.sqrt ((varL xs : ℚ) : ℝ) * Real.sqrt ((varL ys : ℚ) : ℝ) :=
        Real.sqrt_mul hx0.le _

theorem round2_one : round2 1 = 1 := by
  have h : (100 : ℝ) * 1 = ((100 : ℤ) : ℝ) := by norm_num
  rw [round2, h, round_intCast]
  norm_num

theorem round2_bounds {x : ℝ} (h : |x| ≤ 1) :
    ∃ z : ℤ, round2 x = (z : ℝ) / 100 ∧ -1 ≤ round2 x ∧ round2 x ≤ 1 := by
  obtain ⟨hlo, hhi⟩ := abs_le.1 h
  have h1 : round (100 * x) ≤ 100 := by
    rw [round_eq]
    have hf : ⌊100 * x + 1 / 2⌋ < 101 := Int.floor_lt.2 (by push_cast; nlinarith)
    omega
  have h2 : -100 ≤ round (100 * x) := by
    rw [round_eq]
    exact Int.le_floor.2 (by push_cast; nlinarith)
  refine ⟨round (100 * x), rfl, ?_, ?_⟩
  · show (-1 : ℝ) ≤ ((round (100 * x) : ℤ) : ℝ) / 100
    rw [le_div_iff₀ (by norm_num : (0:ℝ) < 100)]
    have hc : ((-100 : ℤ) : ℝ) ≤ ((round (100 * x) : ℤ) : ℝ) := by exact_mod_cast h2
    push_cast at hc
    nlinarith [hc]
  · show ((round (100 * x) : ℤ) : ℝ) / 100 ≤ 1
    rw [div_le_one (by norm_num : (0:ℝ) < 100)]
    exact_mod_cast h1

end CorrelationLemmas

/-- C5: when no numerical column has zero variance, the correlation matrix is
symmetric, has a unit diagonal, and every entry is a two-decimal rational
lying in [-1, 1]. -/
theorem correlation_matrix_spec (df : DataFrame) (M : ℕ → ℕ → ℝ)
    (hM : calculate_pair_wise_correlation df = some M)
    (dfn : DataFrame) (hdfn : extract_numerical_cols df = some dfn)
    (hvar : ∀ c ∈ dfn.cols, varL c.ratValues ≠ 0) :
    ∀ i j : ℕ, i < dfn.cols.length → j < dfn.cols.length →
      M i j = M j i ∧ M i i = 1 ∧
      ∃ z : ℤ, M i j = (z : ℝ) / 100 ∧ -1 ≤ M i j ∧ M i j ≤ 1 := by
  have hMeq : M = corrMatrix dfn := by
    rw [calculate_pair_wise_correlation, hdfn, Option.map_some'] at hM
    exact (Option.some_injective _ hM).symm
  subst hMeq
  intro i j hi hj
  have hgi : dfn.cols.getD i default ∈ dfn.cols := by
    rw [List.getD_eq_getElem?_getD, List.getElem?_eq_getElem hi, Option.getD_some]
    exact dfn.cols.getElem_mem hi
  have hgj : dfn.cols.getD j default ∈ dfn.cols := by
    rw [List.getD_eq_getElem?_getD, List.getElem?_eq_getElem hj, Option.getD_some]
    exact dfn.cols.getElem_mem hj
  have hvi := hvar _ hgi
  have hvj := hvar _ hgj
  refine ⟨?_, ?_, ?_⟩
  · simp only [corrMatrix]
    rw [pearsonR_comm]
  · simp only [corrMatrix]
    rw [pearsonR_self _ hvi, round2_one]
  · simp only [corrMatrix]
    exact round2_bounds (pearsonR_abs_le _ _ hvi hvj)

/-- Witness for C5 on the repository's sample table: the 2-by-2 numerical
correlation matrix is symmetric with diagonal 1 and entries within [-1, 1]. -/
theorem correlation_matrix_spec_witness :
    corrMatrix ⟨[wNum, wAge]⟩ 0 1 = corrMatrix ⟨[wNum, wAge]⟩ 1 0 ∧
    corrMatrix ⟨[wNum, wAge]⟩ 0 0 = 1 ∧
    -1 ≤ corrMatrix ⟨[wNum, wAge]⟩ 0 1 ∧ corrMatrix ⟨[wNum, wAge]⟩ 0 1 ≤ 1 := by
  have hvar : ∀ c ∈ (DataFrame.mk [wNum, wAge]).cols, varL c.ratValues ≠ 0 := by
    intro c hc
    rcases List.mem_cons.1 hc with rfl | hc'
    · norm_num [varL, covL, centered, Col.ratValues, Cell.toRat, wNum,
        List.zipWith]
    · rcases List.mem_cons.1 hc' with rfl | hc''
      · norm_num [varL, covL, centered, Col.ratValues, Cell.toRat, wAge,
          List.zipWith]
      · cases hc''
  have h := correlation_matrix_spec wFrame (corrMatrix ⟨[wNum, wAge]⟩) rfl
    ⟨[wNum, wAge]⟩ rfl hvar 0 1 (by decide) (by decide)
  obtain ⟨hsym, hdiag, _, _, hlo, hhi⟩ := h
  exact ⟨hsym, hdiag, hlo, hhi⟩

/-- Population variance of a column, as StandardScaler computes it. -/
def popVar (vs : List ℚ) : ℚ :=
  ((centered vs).map (fun x => x * x)).sum / (vs.length : ℚ)

/-- StandardScaler on one column: subtract the mean, divide by the standard
deviation, with sklearn's zero-variance fallback replacing a zero scale by 1. -/
noncomputable def stdColumn (vs : List ℚ) : List ℝ :=
  vs.map (fun x => (((x : ℚ) : ℝ) - ((vs.sum / (vs.length : ℚ) : ℚ) : ℝ)) /
    (if popVar vs = 0 then 1 else Real.sqrt ((popVar vs : ℚ) : ℝ)))

/-- standardize_numeric_variables: StandardScaler.fit_transform applied to the
numerical subset, keeping its column labels. -/
noncomputable def standardize_numeric_variables (df : DataFrame) :
    Option (List (String × List ℝ)) :=
  (extract_numerical_cols df).map
    (fun dfn => dfn.cols.map (fun c => (c.name, stdColumn c.ratValues)))

section StandardizeLemmas

theorem sum_sq_zero : ∀ {l : List ℚ}, (l.map (fun x => x * x)).sum = 0 →
    ∀ x ∈ l, x = 0 := by
  intro l
  induction l with
  | nil => intro _ x hx; cases hx
  | cons y ys ih =>
      intro h x hx
      simp only [List.map_cons, List.sum_cons] at h
      have hyy : 0 ≤ y * y := mul_self_nonneg y
      have hrest : 0 ≤ (ys.map (fun x => x * x)).sum := by
        apply List.sum_nonneg
        intro q hq
        obtain ⟨x', _, rfl⟩ := List.mem_map.1 hq
        exact mul_self_nonneg x'
      have hy0 : y * y = 0 := by linarith
      have hr0 : (ys.map (fun x => x * x)).sum = 0 := by linarith
      rcases List.mem_cons.1 hx with rfl | hx'
      · exact mul_self_eq_zero.1 hy0
      · exact ih hr0 x hx'

/-- A zero population variance forces every value to equal the mean. -/
theorem popVar_zero_all_mean {vs : List ℚ} (h : popVar vs = 0) :
    ∀ x ∈ vs, x = vs.sum / (vs.length : ℚ) := by
  intro x hx
  cases hvs : vs with
  | nil => subst hvs; cases hx
  | cons v vs' =>
      have hlen : ((vs.length : ℚ)) ≠ 0 := by
        rw [hvs]
        exact Nat.cast_ne_zero.2 (by simp)
      rw [← hvs] at *
      have hsum : ((centered vs).map (fun x => x * x)).sum = 0 := by
        rw [popVar, div_eq_zero_iff] at h
        rcases h with h | h
        · exact h
        · exact absurd h hlen
      have hall := sum_sq_zero hsum
      have hmem : x - vs.sum / (vs.length : ℚ) ∈ centered vs :=
        List.mem_map_of_mem _ hx
      have := hall _ hmem
      linarith [this]

end StandardizeLemmas

/-- C1 (amended): standardization of a zero-variance column does not fail;
sklearn's StandardScaler replaces the zero scale by 1, so every entry of such
a column is emitted as exactly 0 (no error, no NaN). -/
theorem standardize_zero_variance_emits_zero (df : DataFrame)
    (dfn : DataFrame) (h : extract_numerical_cols df = some dfn) :
    standardize_numeric_variables df =
      some (dfn.cols.map (fun c => (c.name, stdColumn c.ratValues))) ∧
    ∀ c ∈ dfn.cols, popVar c.ratValues = 0 →
      stdColumn c.ratValues = List.replicate c.ratValues.length 0 := by
  refine ⟨by rw [standardize_numeric_variables, h, Option.map_some'], ?_⟩
  intro c _ hv
  have hmean := popVar_zero_all_mean hv
  have hlenstd : (stdColumn c.ratValues).length = c.ratValues.length := by
    simp [stdColumn]
  rw [← hlenstd]
  apply List.eq_replicate_of_mem
  intro b hb
  simp only [stdColumn, List.mem_map] at hb
  obtain ⟨x, hx, rfl⟩ := hb
  have hx0 : x = c.ratValues.sum / (c.ratValues.length : ℚ) := hmean x hx
  rw [hx0]
  simp

/-- Float column of the zero-variance counterexample: constant. -/
def cF : Col := ⟨"F", .float, [.float 5, .float 5]⟩

/-- Constant integer Age column of the zero-variance counterexample. -/
def cAgeConst : Col := ⟨"Age", .int, [.int 30, .int 30]⟩

/-- The counterexample table for C1: every numerical column is constant. -/
def dfStd : DataFrame := ⟨[cF, cAgeConst]⟩

/-- Counterexample for C1 as stated: the numerical subset contains a
zero-variance column, yet standardize succeeds and silently emits 0.0 for
every entry instead of failing. -/
theorem standardize_zero_variance_counterexample :
    extract_numerical_cols dfStd = some ⟨[cF, cAgeConst]⟩ ∧
    popVar cF.ratValues = 0 ∧
    standardize_numeric_variables dfStd =
      some [("F", [0, 0]), ("Age", [0, 0])] := by
  have hpopF : popVar cF.ratValues = 0 := by
    norm_num [popVar, centered, Col.ratValues, Cell.toRat, cF]
  have hpopA : popVar cAgeConst.ratValues = 0 := by
    norm_num [popVar, centered, Col.ratValues, Cell.toRat, cAgeConst]
  refine ⟨rfl, hpopF, ?_⟩
  have hex : extract_numerical_cols dfStd = some (⟨[cF, cAgeConst]⟩ : DataFrame) := rfl
  rw [standardize_numeric_variables, hex, Option.map_some']
  have hF : stdColumn cF.ratValues = [0, 0] := by
    simp only [stdColumn, hpopF, if_pos]
    norm_num [cF, Col.ratValues, Cell.toRat]
  have hA : stdColumn cAgeConst.ratValues = [0, 0] := by
    simp only [stdColumn, hpopA, if_pos]
    norm_num [cAgeConst, Col.ratValues, Cell.toRat]
  simp only [List.map_cons, List.map_nil, hF, hA]
  rfl

/-- Witness for C1's amended theorem at the counterexample table: the constant
float column standardizes to a column of zeros, with no failure. -/
theorem standardize_zero_variance_witness :
    standardize_numeric_variables dfStd =
      some ((DataFrame.mk [cF, cAgeConst]).cols.map
        (fun c => (c.name, stdColumn c.ratValues))) ∧
    stdColumn cF.ratValues = List.replicate cF.ratValues.length 0 := by
  have h := standardize_zero_variance_emits_zero dfStd ⟨[cF, cAgeConst]⟩ rfl
  exact ⟨h.1, h.2 cF (by decide)
    (by norm_num [popVar, centered, Col.ratValues, Cell.toRat, cF])⟩
